import Mathlib

/-!
Verification of the LiveSports-Chat websocket hub
(`internal/websocket/hub.go`) against its natural-language
specification.

The Go source is shallowly embedded: the hub's maps become association
lists, channels with capacity become bounded queues, `rate.Limiter`
becomes an explicit token bucket over `Int`, and the serialized hub loop
(`Run`) becomes a fold of operations over an explicit `HubState`.
-/

namespace SportsChat

/-- Association-list lookup; models access to a Go `map`. -/
def alookup {α β : Type} [DecidableEq α] : List (α × β) → α → Option β
  | [], _ => none
  | (k, v) :: rest, a => if a = k then some v else alookup rest a

/-- Association-list insert/overwrite; models `m[k] = v` on a Go map. -/
def aupdate {α β : Type} [DecidableEq α] : List (α × β) → α → β → List (α × β)
  | [], a, b => [(a, b)]
  | (k, v) :: rest, a, b => if a = k then (a, b) :: rest else (k, v) :: aupdate rest a b

/-- Association-list removal; models `delete(m, k)` on a Go map. -/
def aerase {α β : Type} [DecidableEq α] : List (α × β) → α → List (α × β)
  | [], _ => []
  | (k, v) :: rest, a => if a = k then aerase rest a else (k, v) :: aerase rest a

theorem alookup_aupdate {α β : Type} [DecidableEq α]
    (l : List (α × β)) (a : α) (b : β) (a' : α) :
    alookup (aupdate l a b) a' = if a' = a then some b else alookup l a' := by
  induction l with
  | nil => by_cases h : a' = a <;> simp [aupdate, alookup, h]
  | cons kv rest ih =>
    obtain ⟨k, v⟩ := kv
    by_cases hak : a = k
    · subst hak
      rw [show aupdate ((a, v) :: rest) a b = (a, b) :: rest by simp [aupdate]]
      by_cases h : a' = a <;> simp [alookup, h]
    · rw [show aupdate ((k, v) :: rest) a b = (k, v) :: aupdate rest a b by
        simp [aupdate, hak]]
      by_cases h : a' = k
      · subst h
        have hne : ¬ a' = a := fun hc => hak hc.symm
        simp [alookup, hne]
      · simp [alookup, h, ih]

theorem alookup_aerase {α β : Type} [DecidableEq α]
    (l : List (α × β)) (a : α) (a' : α) :
    alookup (aerase l a) a' = if a' = a then none else alookup l a' := by
  induction l with
  | nil => by_cases h : a' = a <;> simp [aerase, alookup, h]
  | cons kv rest ih =>
    obtain ⟨k, v⟩ := kv
    by_cases hak : a = k
    · subst hak
      rw [show aerase ((a, v) :: rest) a = aerase rest a by simp [aerase]]
      rw [ih]
      by_cases h : a' = a <;> simp [alookup, h]
    · rw [show aerase ((k, v) :: rest) a = (k, v) :: aerase rest a by
        simp [aerase, hak]]
      by_cases h : a' = k
      · subst h
        have hne : ¬ a' = a := fun hc => hak hc.symm
        simp [alookup, hne]
      · simp [alookup, h, ih]

/-- Message kinds of `models.WSMessage.Type` (chat, join, leave, typing,
match event, error). -/
inductive MsgType where
  | chat
  | join
  | leave
  | typing
  | event
  | error
deriving DecidableEq

/-- The fields of `models.Match` that the hub reads: the match identifier
(also used as room identifier), both scores and the status string. -/
structure Match where
  id : String
  homeScore : Int
  awayScore : Int
  status : String
deriving DecidableEq

/-- The fields of `models.WSMessage` used by the hub: message type, target
room, text content, sender identity (`models.User`, reduced to its ID),
optional match snapshot, and timestamp (seconds). -/
structure WSMessage where
  type : MsgType
  chatRoom : String := ""
  content : String := ""
  user : Option String := none
  matchData : Option Match := none
  timestamp : Int := 0
deriving DecidableEq

/-- One websocket `Client`: a numeric identity standing for the Go pointer
identity (distinct connections get distinct ids), the authenticated user,
the fixed set of rooms joined at admission (`client.rooms`), and the
capacity of its buffered `send` channel. -/
structure Client where
  id : Nat
  user : String
  rooms : List String
  sendCap : Nat
deriving DecidableEq

/-- A connection's outbound `send` channel: a bounded FIFO buffer. -/
structure SendQueue where
  buf : List WSMessage
  cap : Nat
deriving DecidableEq

/-- Token bucket of `golang.org/x/time/rate`: refill `limit` tokens per
second up to `burst`.  Time is measured in whole seconds; the limits the
hub instantiates (1 per second and the spec's 10 per second) are integral,
so the token count stays exact on this domain. -/
structure Limiter where
  limit : Int
  burst : Int
  tokens : Int
  last : Int
deriving DecidableEq

/-- Minimum of two integers, written out so that it evaluates by `decide`. -/
def imin (a b : Int) : Int := if a ≤ b then a else b

/-- Constructor `rate.NewLimiter(r, b)`. In the Go implementation a fresh
limiter's first `advance` observes a huge elapsed time since the zero
`last` time and therefore fills the bucket to `burst`; we model that by
starting with a full bucket at time 0. -/
def Limiter.new (r b : Int) : Limiter := ⟨r, b, b, 0⟩

/-- Method `Limiter.Allow` evaluated at absolute time `t` (seconds, with
`t` at or after the limiter's `last` time): advance the token count by the
elapsed refill, capped at `burst`; admit and consume one token when at
least one whole token is available. -/
def Limiter.allowAt (l : Limiter) (t : Int) : Bool × Limiter :=
  let tk := imin l.burst (l.tokens + l.limit * (t - l.last))
  if 1 ≤ tk then (true, ⟨l.limit, l.burst, tk - 1, t⟩)
  else (false, ⟨l.limit, l.burst, tk, t⟩)

/-- Function `rate.Every(interval)`: the `Limit` (events per second)
corresponding to one event each `interval` seconds.  The hub only calls
it at `interval = time.Second`, i.e. one second, where the value is the
exact integer 1. -/
def rateEvery (interval : Int) : Int := 1 / interval

/-- The limiter created by `checkRateLimit` for a room on first use:
`rate.NewLimiter(rate.Every(time.Second), 10)` from hub.go line 192. -/
def newRoomLimiter : Limiter := Limiter.new (rateEvery 1) 10

/-- Feed a list of request times through a limiter, collecting each
`Allow` verdict. -/
def runAllows : Limiter → List Int → List Bool
  | _, [] => []
  | l, t :: ts => ((l.allowAt t).1) :: runAllows (l.allowAt t).2 ts

/-- The hub's mutable state (`Hub` in hub.go): the registered client set,
the room index `rooms : map[string]map[*Client]bool`, the per-room rate
limiters, and the cached match snapshots `matches`.  Per-connection
outbound `send` channels are collected in `queues` (keyed by client id;
an entry exists while the channel is open), and `pendingUnregister`
records clients whose eviction `broadcastToRoom` has dispatched
asynchronously (`go h.unregister <- client`) but the hub loop has not
yet consumed. -/
structure HubState where
  clients : List Client
  rooms : List (String × List Client)
  queues : List (Nat × SendQueue)
  roomLimiters : List (String × Limiter)
  matchCache : List (String × Match)
  pendingUnregister : List Client
deriving DecidableEq

/-- The hub as created by `NewHub`: every map empty. -/
def HubState.init : HubState := ⟨[], [], [], [], [], []⟩

/-- Member set of a room: `h.rooms[room]`, empty when the entry is absent. -/
def roomMembers (h : HubState) (room : String) : List Client :=
  (alookup h.rooms room).getD []

/-- Set-insert into a member list; models `m[client] = true` on a Go
`map[*Client]bool`. -/
def insertClient (c : Client) (l : List Client) : List Client :=
  if c ∈ l then l else c :: l

/-- Set-removal from a member list; models `delete(m, client)`. -/
def removeClient (c : Client) (l : List Client) : List Client :=
  l.filter (fun x => x ≠ c)

/-- Non-blocking send on a buffered channel (`select`/`default`): succeed
while the buffer is below capacity, report `none` when full. -/
def enqueue? (q : SendQueue) (m : WSMessage) : Option SendQueue :=
  if q.buf.length < q.cap then some ⟨q.buf ++ [m], q.cap⟩ else none

/-- The join event synthesized by `handleRegister` for one room. -/
def joinMsg (c : Client) (room : String) (now : Int) : WSMessage :=
  { type := .join, chatRoom := room, user := some c.user, timestamp := now }

/-- The leave event synthesized by `handleUnregister` for one room. -/
def leaveMsg (c : Client) (room : String) (now : Int) : WSMessage :=
  { type := .leave, chatRoom := room, user := some c.user, timestamp := now }

/-- The match-event message synthesized by `fetchMatchUpdates` for a
changed or new match. -/
def eventMsg (m : Match) (now : Int) : WSMessage :=
  { type := .event, chatRoom := m.id, matchData := some m, timestamp := now }

/-- The error reply built by `readPump` when the per-connection rate
limiter rejects a frame. -/
def rateLimitErrorMsg : WSMessage :=
  { type := .error, content := "Rate limit exceeded" }

/-- The error reply built by `readPump` when the sender is not a member of
the target room. -/
def accessDeniedMsg : WSMessage :=
  { type := .error, content := "Room access denied" }

/-- The fan-out loop inside `broadcastToRoom`: for each member in order,
a non-blocking send of the payload onto its `send` channel; on a full
queue the member is handed to the unregister channel asynchronously
(`go h.unregister <- client`), modelled by appending it to the pending
eviction list, so the loop itself keeps going and the eviction is
processed only by a later hub-loop iteration. -/
def fanout : List Client → WSMessage → List (Nat × SendQueue) → List Client →
    List (Nat × SendQueue) × List Client
  | [], _, qs, pend => (qs, pend)
  | c :: rest, m, qs, pend =>
    match alookup qs c.id with
    | none => fanout rest m qs pend
    | some q =>
      match enqueue? q m with
      | some q2 => fanout rest m (aupdate qs c.id q2) pend
      | none => fanout rest m qs (pend ++ [c])

/-- Function `broadcastToRoom`: marshal the message (marshalling of these
messages cannot fail in the model) and run the fan-out loop over the
room's current member set. -/
def broadcastToRoom (h : HubState) (room : String) (m : WSMessage) : HubState :=
  let res := fanout (roomMembers h room) m h.queues h.pendingUnregister
  { h with queues := res.1, pendingUnregister := res.2 }

/-- The room loop of `handleRegister`: for each room of the new client,
create the room entry when missing, insert the client into the member
set, then fan out the synthesized join event to that room. -/
def joinRooms (c : Client) (now : Int) : HubState → List String → HubState
  | h, [] => h
  | h, r :: rs =>
    let h1 : HubState :=
      { h with rooms := aupdate h.rooms r (insertClient c (roomMembers h r)) }
    joinRooms c now (broadcastToRoom h1 r (joinMsg c r now)) rs

/-- Function `handleRegister`: add the client to the global client set and
run the room loop.  The client arrives with a fresh open `send` channel
(created by the accept path), recorded here; `sendInitialData` is spawned
concurrently and is modelled separately (see the session interleaving
model below). -/
def handleRegister (h : HubState) (c : Client) (now : Int) : HubState :=
  let qs := match alookup h.queues c.id with
    | some _ => h.queues
    | none => aupdate h.queues c.id ⟨[], c.sendCap⟩
  joinRooms c now { h with clients := insertClient c h.clients, queues := qs } c.rooms

/-- The room loop of `handleUnregister`: for each room of the departing
client whose entry exists, delete the client from the member set, delete
the room entry when the member set became empty, then fan out the
synthesized leave event to that room. -/
def leaveRooms (c : Client) (now : Int) : HubState → List String → HubState
  | h, [] => h
  | h, r :: rs =>
    match alookup h.rooms r with
    | none => leaveRooms c now h rs
    | some l =>
      let l2 := removeClient c l
      let h1 : HubState :=
        { h with rooms := if l2.isEmpty then aerase h.rooms r else aupdate h.rooms r l2 }
      leaveRooms c now (broadcastToRoom h1 r (leaveMsg c r now)) rs

/-- Function `handleUnregister`: a no-op for an unknown client; otherwise
remove it from the client set, close its `send` channel (the queue entry
disappears), and run the room loop. -/
def handleUnregister (h : HubState) (c : Client) (now : Int) : HubState :=
  if c ∈ h.clients then
    leaveRooms c now
      { h with clients := removeClient c h.clients, queues := aerase h.queues c.id }
      c.rooms
  else h

/-- Function `checkRateLimit`: fetch the room's limiter, creating
`rate.NewLimiter(rate.Every(time.Second), 10)` lazily on first use, and
ask it for one token at the current time. -/
def checkRateLimit (h : HubState) (room : String) (now : Int) : Bool × HubState :=
  let limiter := match alookup h.roomLimiters room with
    | some l => l
    | none => newRoomLimiter
  let res := limiter.allowAt now
  (res.1, { h with roomLimiters := aupdate h.roomLimiters room res.2 })

/-- Function `handleBroadcast`: consult the room limiter and drop the
message silently on rejection; otherwise fan out to the room (persistence
of chat messages is a fire-and-forget call to the external store and has
no effect on hub state). -/
def handleBroadcast (h : HubState) (m : WSMessage) (now : Int) : HubState :=
  let res := checkRateLimit h m.chatRoom now
  if res.1 then broadcastToRoom res.2 m.chatRoom m else res.2

/-- Function `matchNeedsUpdate`: a cached snapshot needs re-broadcast when
either score or the status changed. -/
def matchNeedsUpdate (old new : Match) : Bool :=
  if old.homeScore ≠ new.homeScore ∨ old.awayScore ≠ new.awayScore then
    true
  else if old.status ≠ new.status then
    true
  else
    false

/-- Whether `fetchMatchUpdates` considers a polled match new or changed
with respect to a cache: no cached entry, or `matchNeedsUpdate`. -/
def needsBroadcast (cache : List (String × Match)) (m : Match) : Bool :=
  match alookup cache m.id with
  | none => true
  | some old => matchNeedsUpdate old m

/-- Function `fetchMatchUpdates`, given the list of live matches returned
by the store: for each match in order, when it is new to the cache or
`matchNeedsUpdate` holds, write it to the cache and submit a match-event
broadcast; returns the updated cache and the submitted broadcasts in
order. -/
def fetchMatchUpdates (cache : List (String × Match)) (live : List Match)
    (now : Int) : List (String × Match) × List WSMessage :=
  match live with
  | [] => (cache, [])
  | m :: rest =>
    if needsBroadcast cache m then
      let res := fetchMatchUpdates (aupdate cache m.id m) rest now
      (res.1, eventMsg m now :: res.2)
    else
      fetchMatchUpdates cache rest now

/-- Method `canAccessRoom`: lookup in the client's own room set. -/
def canAccessRoom (c : Client) (room : String) : Bool :=
  decide (room ∈ c.rooms)

/-- One iteration of `readPump` after a frame was read, as a pure
function of the decode result (`none` for a decode failure) and the
per-connection limiter's verdict.  Result: the error replies enqueued
onto the sender's own `send` channel, the messages submitted to the hub's
broadcast channel, and whether the pump keeps reading. -/
def processFrame (c : Client) (decoded : Option WSMessage) (allow : Bool)
    (now : Int) : List WSMessage × List WSMessage × Bool :=
  match decoded with
  | none => ([], [], true)
  | some m =>
    if allow then
      let m1 : WSMessage := { m with user := some c.user, timestamp := now }
      if canAccessRoom c m1.chatRoom then ([], [m1], true)
      else ([accessDeniedMsg], [], true)
    else ([rateLimitErrorMsg], [], true)

/-- One event consumed by the hub loop `Run`, or one poller tick.  The
broadcasts a poll submits to the hub's broadcast channel are consumed by
the loop as later `broadcastMsg` events. -/
inductive HubOp where
  | register (c : Client) (now : Int)
  | unregister (c : Client) (now : Int)
  | broadcastMsg (m : WSMessage) (now : Int)
  | poll (live : List Match) (now : Int)

/-- Serialized processing of one hub event. -/
def applyOp (h : HubState) : HubOp → HubState
  | .register c now => handleRegister h c now
  | .unregister c now => handleUnregister h c now
  | .broadcastMsg m now => handleBroadcast h m now
  | .poll live now => { h with matchCache := (fetchMatchUpdates h.matchCache live now).1 }

/-- A run of the hub loop over a sequence of events. -/
def runOps (h : HubState) : List HubOp → HubState
  | [] => h
  | op :: rest => runOps (applyOp h op) rest

/-- Interleaving model for one connection's lifecycle, covering the three
concurrent writers of its `send` channel that hub.go creates: the hub
loop (which closes the channel in `handleUnregister`) and the
`sendInitialData` goroutine spawned by `handleRegister` (which performs
unguarded `client.send <- payload` sends).  `registered` is membership in
`h.clients`, `queueClosed` records `close(client.send)`, `initPending`
records that the spawned `sendInitialData` has not yet executed its send,
and `writeAfterClose` records that a send was executed on the already
closed channel (in Go, a runtime panic). -/
structure SessionState where
  registered : Bool
  queueClosed : Bool
  initPending : Bool
  delivered : List WSMessage
  writeAfterClose : Bool
deriving DecidableEq

/-- The payload `sendInitialData` writes to the new client's channel (a
recent chat message or the cached match snapshot). -/
def initialPayload : WSMessage :=
  { type := .chat, chatRoom := "m1", content := "history" }

/-- One atomic step of the interleaving: the hub loop processing a
register event (spawning `sendInitialData`), the hub loop processing an
unregister event (guarded by the presence check; closes the channel), or
the `sendInitialData` goroutine executing its pending channel send. -/
inductive SessionStep where
  | hubRegister
  | hubUnregister
  | initialSend

/-- Effect of one interleaving step on the session state. -/
def sessionStep (s : SessionState) : SessionStep → SessionState
  | .hubRegister =>
    { s with registered := true, initPending := true }
  | .hubUnregister =>
    if s.registered then { s with registered := false, queueClosed := true } else s
  | .initialSend =>
    if s.initPending then
      if s.queueClosed then { s with initPending := false, writeAfterClose := true }
      else { s with initPending := false, delivered := s.delivered ++ [initialPayload] }
    else s

/-- A run of an interleaving of the session's concurrent steps. -/
def sessionRun (s : SessionState) : List SessionStep → SessionState
  | [] => s
  | st :: rest => sessionRun (sessionStep s st) rest

/-- The state of a connection before it is handed to the hub. -/
def sessionInit : SessionState := ⟨false, false, false, [], false⟩

theorem broadcastToRoom_clients (h : HubState) (room : String) (m : WSMessage) :
    (broadcastToRoom h room m).clients = h.clients := rfl

theorem broadcastToRoom_rooms (h : HubState) (room : String) (m : WSMessage) :
    (broadcastToRoom h room m).rooms = h.rooms := rfl

theorem broadcastToRoom_roomLimiters (h : HubState) (room : String) (m : WSMessage) :
    (broadcastToRoom h room m).roomLimiters = h.roomLimiters := rfl

theorem broadcastToRoom_matchCache (h : HubState) (room : String) (m : WSMessage) :
    (broadcastToRoom h room m).matchCache = h.matchCache := rfl

theorem checkRateLimit_clients (h : HubState) (room : String) (now : Int) :
    (checkRateLimit h room now).2.clients = h.clients := rfl

theorem checkRateLimit_rooms (h : HubState) (room : String) (now : Int) :
    (checkRateLimit h room now).2.rooms = h.rooms := rfl

theorem checkRateLimit_queues (h : HubState) (room : String) (now : Int) :
    (checkRateLimit h room now).2.queues = h.queues := rfl

theorem checkRateLimit_pendingUnregister (h : HubState) (room : String) (now : Int) :
    (checkRateLimit h room now).2.pendingUnregister = h.pendingUnregister := rfl

theorem checkRateLimit_matchCache (h : HubState) (room : String) (now : Int) :
    (checkRateLimit h room now).2.matchCache = h.matchCache := rfl

theorem handleBroadcast_clients (h : HubState) (m : WSMessage) (now : Int) :
    (handleBroadcast h m now).clients = h.clients := by
  by_cases hb : (checkRateLimit h m.chatRoom now).1 = true <;>
    simp [handleBroadcast, hb, broadcastToRoom_clients, checkRateLimit_clients]

theorem handleBroadcast_rooms (h : HubState) (m : WSMessage) (now : Int) :
    (handleBroadcast h m now).rooms = h.rooms := by
  by_cases hb : (checkRateLimit h m.chatRoom now).1 = true <;>
    simp [handleBroadcast, hb, broadcastToRoom_rooms, checkRateLimit_rooms]

theorem handleBroadcast_matchCache (h : HubState) (m : WSMessage) (now : Int) :
    (handleBroadcast h m now).matchCache = h.matchCache := by
  by_cases hb : (checkRateLimit h m.chatRoom now).1 = true <;>
    simp [handleBroadcast, hb, broadcastToRoom_matchCache, checkRateLimit_matchCache]

theorem mem_insertClient (a c : Client) (l : List Client) :
    a ∈ insertClient c l ↔ (a = c ∨ a ∈ l) := by
  unfold insertClient
  by_cases hc : c ∈ l
  · rw [if_pos hc]
    constructor
    · exact fun ha => Or.inr ha
    · rintro (rfl | ha)
      · exact hc
      · exact ha
  · rw [if_neg hc]
    simp [List.mem_cons]

theorem mem_removeClient (a c : Client) (l : List Client) :
    a ∈ removeClient c l ↔ (a ∈ l ∧ a ≠ c) := by
  simp [removeClient]

theorem insertClient_ne_nil (c : Client) (l : List Client) :
    insertClient c l ≠ [] := by
  unfold insertClient
  by_cases hc : c ∈ l
  · rw [if_pos hc]
    exact List.ne_nil_of_mem hc
  · rw [if_neg hc]
    exact List.cons_ne_nil c l

theorem roomMembers_update (h : HubState) (r : String) (l : List Client) (r' : String) :
    roomMembers { h with rooms := aupdate h.rooms r l } r'
      = if r' = r then l else roomMembers h r' := by
  by_cases hr : r' = r <;> simp [roomMembers, alookup_aupdate, hr]

theorem enqueue?_pos (q : SendQueue) (m : WSMessage) (hfree : q.buf.length < q.cap) :
    enqueue? q m = some ⟨q.buf ++ [m], q.cap⟩ := by
  simp [enqueue?, hfree]

theorem enqueue?_neg (q : SendQueue) (m : WSMessage) (hfull : ¬ q.buf.length < q.cap) :
    enqueue? q m = none := by
  simp [enqueue?, hfull]

theorem fanout_pending_mono (m : WSMessage) :
    ∀ (ms : List Client) (qs : List (Nat × SendQueue)) (pend : List Client) (a : Client),
    a ∈ pend → a ∈ (fanout ms m qs pend).2 := by
  intro ms
  induction ms with
  | nil =>
    intro qs pend a ha
    simpa [fanout] using ha
  | cons c rest ih =>
    intro qs pend a ha
    cases hq : alookup qs c.id with
    | none =>
      rw [show fanout (c :: rest) m qs pend = fanout rest m qs pend by simp [fanout, hq]]
      exact ih qs pend a ha
    | some q =>
      cases he : enqueue? q m with
      | some q2 =>
        rw [show fanout (c :: rest) m qs pend = fanout rest m (aupdate qs c.id q2) pend by
          simp [fanout, hq, he]]
        exact ih _ pend a ha
      | none =>
        rw [show fanout (c :: rest) m qs pend = fanout rest m qs (pend ++ [c]) by
          simp [fanout, hq, he]]
        exact ih qs (pend ++ [c]) a (List.mem_append_left _ ha)

theorem fanout_lookup_other (m : WSMessage) :
    ∀ (ms : List Client) (qs : List (Nat × SendQueue)) (pend : List Client) (cid : Nat),
    (∀ c ∈ ms, c.id ≠ cid) →
    alookup (fanout ms m qs pend).1 cid = alookup qs cid := by
  intro ms
  induction ms with
  | nil =>
    intro qs pend cid _
    rfl
  | cons c rest ih =>
    intro qs pend cid hne
    have hc : c.id ≠ cid := hne c (List.mem_cons_self c rest)
    have hrest : ∀ e ∈ rest, e.id ≠ cid := fun e he => hne e (List.mem_cons_of_mem c he)
    cases hq : alookup qs c.id with
    | none =>
      rw [show fanout (c :: rest) m qs pend = fanout rest m qs pend by simp [fanout, hq]]
      exact ih qs pend cid hrest
    | some q =>
      cases he : enqueue? q m with
      | some q2 =>
        rw [show fanout (c :: rest) m qs pend = fanout rest m (aupdate qs c.id q2) pend by
          simp [fanout, hq, he]]
        rw [ih _ pend cid hrest, alookup_aupdate,
          if_neg (fun hcontra => hc hcontra.symm)]
      | none =>
        rw [show fanout (c :: rest) m qs pend = fanout rest m qs (pend ++ [c]) by
          simp [fanout, hq, he]]
        exact ih qs (pend ++ [c]) cid hrest

theorem fanout_member_spec (m : WSMessage) :
    ∀ (ms : List Client) (qs : List (Nat × SendQueue)) (pend : List Client)
      (c : Client) (q : SendQueue),
    (ms.map Client.id).Nodup → c ∈ ms → alookup qs c.id = some q →
    alookup (fanout ms m qs pend).1 c.id
        = some (if q.buf.length < q.cap then SendQueue.mk (q.buf ++ [m]) q.cap else q)
      ∧ (¬ q.buf.length < q.cap → c ∈ (fanout ms m qs pend).2) := by
  intro ms
  induction ms with
  | nil =>
    intro qs pend c q _ hc
    exact absurd hc (List.not_mem_nil c)
  | cons d rest ih =>
    intro qs pend c q hnodup hc hq
    have hnodup2 : (d.id ∉ rest.map Client.id) ∧ (rest.map Client.id).Nodup := by
      rw [List.map_cons, List.nodup_cons] at hnodup
      exact hnodup
    rcases List.mem_cons.mp hc with rfl | hcr
    · have hidrest : ∀ e ∈ rest, e.id ≠ c.id := by
        intro e he heq
        exact hnodup2.1 (heq ▸ List.mem_map_of_mem Client.id he)
      by_cases hfree : q.buf.length < q.cap
      · rw [show fanout (c :: rest) m qs pend
            = fanout rest m (aupdate qs c.id ⟨q.buf ++ [m], q.cap⟩) pend by
          simp [fanout, hq, enqueue?_pos q m hfree]]
        constructor
        · rw [fanout_lookup_other m rest _ pend c.id hidrest, alookup_aupdate]
          simp [hfree]
        · intro hfull
          exact absurd hfree hfull
      · rw [show fanout (c :: rest) m qs pend = fanout rest m qs (pend ++ [c]) by
          simp [fanout, hq, enqueue?_neg q m hfree]]
        constructor
        · rw [fanout_lookup_other m rest qs _ c.id hidrest, hq]
          simp [hfree]
        · intro _
          exact fanout_pending_mono m rest qs (pend ++ [c]) c (by simp)
    · have hdc : d.id ≠ c.id := by
        intro heq
        exact hnodup2.1 (heq ▸ List.mem_map_of_mem Client.id hcr)
      cases hqd : alookup qs d.id with
      | none =>
        rw [show fanout (d :: rest) m qs pend = fanout rest m qs pend by simp [fanout, hqd]]
        exact ih qs pend c q hnodup2.2 hcr hq
      | some qd =>
        cases he : enqueue? qd m with
        | some q2 =>
          rw [show fanout (d :: rest) m qs pend = fanout rest m (aupdate qs d.id q2) pend by
            simp [fanout, hqd, he]]
          have hq2 : alookup (aupdate qs d.id q2) c.id = some q := by
            rw [alookup_aupdate, if_neg (fun hcontra => hdc hcontra.symm)]
            exact hq
          exact ih _ pend c q hnodup2.2 hcr hq2
        | none =>
          rw [show fanout (d :: rest) m qs pend = fanout rest m qs (pend ++ [d]) by
            simp [fanout, hqd, he]]
          exact ih qs (pend ++ [d]) c q hnodup2.2 hcr hq

theorem joinRooms_clients (c : Client) (now : Int) :
    ∀ (rs : List String) (h : HubState), (joinRooms c now h rs).clients = h.clients := by
  intro rs
  induction rs with
  | nil => intro h; rfl
  | cons r rest ih =>
    intro h
    simp only [joinRooms]
    rw [ih]
    rfl

theorem joinRooms_roomLimiters (c : Client) (now : Int) :
    ∀ (rs : List String) (h : HubState),
    (joinRooms c now h rs).roomLimiters = h.roomLimiters := by
  intro rs
  induction rs with
  | nil => intro h; rfl
  | cons r rest ih =>
    intro h
    simp only [joinRooms]
    rw [ih]
    rfl

theorem joinRooms_matchCache (c : Client) (now : Int) :
    ∀ (rs : List String) (h : HubState),
    (joinRooms c now h rs).matchCache = h.matchCache := by
  intro rs
  induction rs with
  | nil => intro h; rfl
  | cons r rest ih =>
    intro h
    simp only [joinRooms]
    rw [ih]
    rfl

theorem leaveRooms_clients (c : Client) (now : Int) :
    ∀ (rs : List String) (h : HubState), (leaveRooms c now h rs).clients = h.clients := by
  intro rs
  induction rs with
  | nil => intro h; rfl
  | cons r rest ih =>
    intro h
    cases hl : alookup h.rooms r with
    | none =>
      rw [show leaveRooms c now h (r :: rest) = leaveRooms c now h rest by
        simp [leaveRooms, hl]]
      exact ih h
    | some l =>
      rw [show leaveRooms c now h (r :: rest)
          = leaveRooms c now
              (broadcastToRoom
                { h with rooms := if (removeClient c l).isEmpty then aerase h.rooms r
                    else aupdate h.rooms r (removeClient c l) }
                r (leaveMsg c r now)) rest by
        simp [leaveRooms, hl]]
      rw [ih]
      rfl

theorem leaveRooms_roomLimiters (c : Client) (now : Int) :
    ∀ (rs : List String) (h : HubState),
    (leaveRooms c now h rs).roomLimiters = h.roomLimiters := by
  intro rs
  induction rs with
  | nil => intro h; rfl
  | cons r rest ih =>
    intro h
    cases hl : alookup h.rooms r with
    | none =>
      rw [show leaveRooms c now h (r :: rest) = leaveRooms c now h rest by
        simp [leaveRooms, hl]]
      exact ih h
    | some l =>
      rw [show leaveRooms c now h (r :: rest)
          = leaveRooms c now
              (broadcastToRoom
                { h with rooms := if (removeClient c l).isEmpty then aerase h.rooms r
                    else aupdate h.rooms r (removeClient c l) }
                r (leaveMsg c r now)) rest by
        simp [leaveRooms, hl]]
      rw [ih]
      rfl

theorem leaveRooms_matchCache (c : Client) (now : Int) :
    ∀ (rs : List String) (h : HubState),
    (leaveRooms c now h rs).matchCache = h.matchCache := by
  intro rs
  induction rs with
  | nil => intro h; rfl
  | cons r rest ih =>
    intro h
    cases hl : alookup h.rooms r with
    | none =>
      rw [show leaveRooms c now h (r :: rest) = leaveRooms c now h rest by
        simp [leaveRooms, hl]]
      exact ih h
    | some l =>
      rw [show leaveRooms c now h (r :: rest)
          = leaveRooms c now
              (broadcastToRoom
                { h with rooms := if (removeClient c l).isEmpty then aerase h.rooms r
                    else aupdate h.rooms r (removeClient c l) }
                r (leaveMsg c r now)) rest by
        simp [leaveRooms, hl]]
      rw [ih]
      rfl

theorem roomMembers_leaveStep (h : HubState) (r : String) (l2 : List Client) (r' : String) :
    roomMembers
        { h with rooms := if l2.isEmpty then aerase h.rooms r else aupdate h.rooms r l2 } r'
      = if r' = r then l2 else roomMembers h r' := by
  by_cases he : l2.isEmpty
  · have hnil : l2 = [] := List.isEmpty_iff.mp he
    subst hnil
    by_cases hr : r' = r <;> simp [he, roomMembers, alookup_aerase, hr]
  · by_cases hr : r' = r <;> simp [he, roomMembers, alookup_aupdate, hr]

theorem broadcastToRoom_roomMembers (h : HubState) (room : String) (m : WSMessage)
    (r : String) : roomMembers (broadcastToRoom h room m) r = roomMembers h r := by
  simp [roomMembers, broadcastToRoom_rooms]

theorem joinRooms_mem (c : Client) (now : Int) :
    ∀ (rs : List String) (h : HubState) (a : Client) (r : String),
    a ∈ roomMembers (joinRooms c now h rs) r
      ↔ (a ∈ roomMembers h r ∨ (a = c ∧ r ∈ rs)) := by
  intro rs
  induction rs with
  | nil =>
    intro h a r
    simp [joinRooms]
  | cons r0 rest ih =>
    intro h a r
    simp only [joinRooms]
    rw [ih, broadcastToRoom_roomMembers, roomMembers_update]
    by_cases hr : r = r0
    · subst hr
      rw [if_pos rfl]
      simp only [mem_insertClient, List.mem_cons]
      tauto
    · rw [if_neg hr]
      simp only [List.mem_cons]
      constructor
      · rintro (ha | ⟨rfl, hrest⟩)
        · exact Or.inl ha
        · exact Or.inr ⟨rfl, Or.inr hrest⟩
      · rintro (ha | ⟨rfl, (hcontra | hrest)⟩)
        · exact Or.inl ha
        · exact absurd hcontra hr
        · exact Or.inr ⟨rfl, hrest⟩

theorem leaveRooms_mem (c : Client) (now : Int) :
    ∀ (rs : List String) (h : HubState) (a : Client) (r : String),
    a ∈ roomMembers (leaveRooms c now h rs) r
      ↔ (a ∈ roomMembers h r ∧ ¬(a = c ∧ r ∈ rs)) := by
  intro rs
  induction rs with
  | nil =>
    intro h a r
    simp [leaveRooms]
  | cons r0 rest ih =>
    intro h a r
    cases hl : alookup h.rooms r0 with
    | none =>
      rw [show leaveRooms c now h (r0 :: rest) = leaveRooms c now h rest by
        simp [leaveRooms, hl]]
      rw [ih]
      have hm : roomMembers h r0 = [] := by simp [roomMembers, hl]
      by_cases hr : r = r0
      · subst hr
        rw [hm]
        simp
      · simp only [List.mem_cons]
        constructor
        · rintro ⟨ha, hn⟩
          refine ⟨ha, ?_⟩
          rintro ⟨rfl, (hcontra | hrest)⟩
          · exact hr hcontra
          · exact hn ⟨rfl, hrest⟩
        · rintro ⟨ha, hn⟩
          refine ⟨ha, ?_⟩
          rintro ⟨rfl, hrest⟩
          exact hn ⟨rfl, Or.inr hrest⟩
    | some l =>
      rw [show leaveRooms c now h (r0 :: rest)
          = leaveRooms c now
              (broadcastToRoom
                { h with rooms := if (removeClient c l).isEmpty then aerase h.rooms r0
                    else aupdate h.rooms r0 (removeClient c l) }
                r0 (leaveMsg c r0 now)) rest by
        simp [leaveRooms, hl]]
      rw [ih, broadcastToRoom_roomMembers, roomMembers_leaveStep]
      have hml : roomMembers h r0 = l := by simp [roomMembers, hl]
      by_cases hr : r = r0
      · subst hr
        rw [if_pos rfl, hml]
        simp only [mem_removeClient, List.mem_cons]
        tauto
      · rw [if_neg hr]
        simp only [List.mem_cons]
        constructor
        · rintro ⟨ha, hn⟩
          refine ⟨ha, ?_⟩
          rintro ⟨rfl, (hcontra | hrest)⟩
          · exact hr hcontra
          · exact hn ⟨rfl, hrest⟩
        · rintro ⟨ha, hn⟩
          refine ⟨ha, ?_⟩
          rintro ⟨rfl, hrest⟩
          exact hn ⟨rfl, Or.inr hrest⟩

/-- Bidirectional membership consistency: a client sits in a room's member
set exactly when it is registered and lists that room in its own room
set. -/
def MembershipInv (h : HubState) : Prop :=
  ∀ a r, a ∈ roomMembers h r ↔ (a ∈ h.clients ∧ r ∈ a.rooms)

/-- Every room entry present in the index has a non-empty member set. -/
def RoomsNonempty (h : HubState) : Prop :=
  ∀ r l, alookup h.rooms r = some l → l ≠ []

theorem MembershipInv_register (h : HubState) (c : Client) (now : Int)
    (hinv : MembershipInv h) : MembershipInv (handleRegister h c now) := by
  intro a r
  simp only [handleRegister]
  rw [joinRooms_mem, joinRooms_clients]
  show (a ∈ roomMembers h r ∨ (a = c ∧ r ∈ c.rooms))
    ↔ (a ∈ insertClient c h.clients ∧ r ∈ a.rooms)
  rw [hinv a r, mem_insertClient]
  by_cases hac : a = c
  · subst hac
    tauto
  · tauto

theorem MembershipInv_unregister (h : HubState) (c : Client) (now : Int)
    (hinv : MembershipInv h) : MembershipInv (handleUnregister h c now) := by
  unfold handleUnregister
  by_cases hc : c ∈ h.clients
  · rw [if_pos hc]
    intro a r
    rw [leaveRooms_mem, leaveRooms_clients]
    show (a ∈ roomMembers h r ∧ ¬(a = c ∧ r ∈ c.rooms))
      ↔ (a ∈ removeClient c h.clients ∧ r ∈ a.rooms)
    rw [hinv a r, mem_removeClient]
    by_cases hac : a = c
    · subst hac
      tauto
    · tauto
  · rw [if_neg hc]
    exact hinv

theorem MembershipInv_applyOp (h : HubState) (op : HubOp)
    (hinv : MembershipInv h) : MembershipInv (applyOp h op) := by
  cases op with
  | register c now => exact MembershipInv_register h c now hinv
  | unregister c now => exact MembershipInv_unregister h c now hinv
  | broadcastMsg m now =>
    intro a r
    simp only [applyOp]
    rw [show roomMembers (handleBroadcast h m now) r = roomMembers h r by
      simp [roomMembers, handleBroadcast_rooms]]
    rw [handleBroadcast_clients]
    exact hinv a r
  | poll live now => exact hinv

theorem RoomsNonempty_joinRooms (c : Client) (now : Int) :
    ∀ (rs : List String) (h : HubState),
    RoomsNonempty h → RoomsNonempty (joinRooms c now h rs) := by
  intro rs
  induction rs with
  | nil =>
    intro h hne
    exact hne
  | cons r0 rest ih =>
    intro h hne
    simp only [joinRooms]
    apply ih
    intro r l hl
    rw [broadcastToRoom_rooms] at hl
    have hl2 : alookup (aupdate h.rooms r0 (insertClient c (roomMembers h r0))) r
        = some l := hl
    rw [alookup_aupdate] at hl2
    by_cases hr : r = r0
    · rw [if_pos hr] at hl2
      cases hl2
      exact insertClient_ne_nil c (roomMembers h r0)
    · rw [if_neg hr] at hl2
      exact hne r l hl2

theorem RoomsNonempty_leaveRooms (c : Client) (now : Int) :
    ∀ (rs : List String) (h : HubState),
    RoomsNonempty h → RoomsNonempty (leaveRooms c now h rs) := by
  intro rs
  induction rs with
  | nil =>
    intro h hne
    exact hne
  | cons r0 rest ih =>
    intro h hne
    cases hl0 : alookup h.rooms r0 with
    | none =>
      rw [show leaveRooms c now h (r0 :: rest) = leaveRooms c now h rest by
        simp [leaveRooms, hl0]]
      exact ih h hne
    | some l0 =>
      rw [show leaveRooms c now h (r0 :: rest)
          = leaveRooms c now
              (broadcastToRoom
                { h with rooms := if (removeClient c l0).isEmpty then aerase h.rooms r0
                    else aupdate h.rooms r0 (removeClient c l0) }
                r0 (leaveMsg c r0 now)) rest by
        simp [leaveRooms, hl0]]
      apply ih
      intro r l hl
      rw [broadcastToRoom_rooms] at hl
      have hl2 : alookup (if (removeClient c l0).isEmpty then aerase h.rooms r0
          else aupdate h.rooms r0 (removeClient c l0)) r = some l := hl
      by_cases he : (removeClient c l0).isEmpty
      · rw [if_pos he, alookup_aerase] at hl2
        by_cases hr : r = r0
        · rw [if_pos hr] at hl2
          cases hl2
        · rw [if_neg hr] at hl2
          exact hne r l hl2
      · rw [if_neg he, alookup_aupdate] at hl2
        by_cases hr : r = r0
        · rw [if_pos hr] at hl2
          cases hl2
          intro hnil
          rw [hnil] at he
          exact he rfl
        · rw [if_neg hr] at hl2
          exact hne r l hl2

theorem RoomsNonempty_applyOp (h : HubState) (op : HubOp)
    (hne : RoomsNonempty h) : RoomsNonempty (applyOp h op) := by
  cases op with
  | register c now =>
    exact RoomsNonempty_joinRooms c now c.rooms _ hne
  | unregister c now =>
    show RoomsNonempty (handleUnregister h c now)
    unfold handleUnregister
    by_cases hc : c ∈ h.clients
    · rw [if_pos hc]
      exact RoomsNonempty_leaveRooms c now c.rooms _ hne
    · rw [if_neg hc]
      exact hne
  | broadcastMsg m now =>
    intro r l hl
    simp only [applyOp] at hl
    rw [handleBroadcast_rooms] at hl
    exact hne r l hl
  | poll live now => exact hne

theorem MembershipInv_runOps :
    ∀ (ops : List HubOp) (h : HubState),
    MembershipInv h → RoomsNonempty h →
    MembershipInv (runOps h ops) ∧ RoomsNonempty (runOps h ops) := by
  intro ops
  induction ops with
  | nil =>
    intro h h1 h2
    exact ⟨h1, h2⟩
  | cons op rest ih =>
    intro h h1 h2
    exact ih (applyOp h op) (MembershipInv_applyOp h op h1) (RoomsNonempty_applyOp h op h2)

theorem MembershipInv_init : MembershipInv HubState.init := by
  intro a r
  simp [roomMembers, HubState.init, alookup]

theorem RoomsNonempty_init : RoomsNonempty HubState.init := by
  intro r l hl
  cases hl

theorem checkRateLimit_roomLimiters_eq (h : HubState) (room : String) (now : Int) :
    ∃ v, (checkRateLimit h room now).2.roomLimiters = aupdate h.roomLimiters room v :=
  ⟨_, rfl⟩

theorem handleBroadcast_roomLimiters (h : HubState) (m : WSMessage) (now : Int) :
    (handleBroadcast h m now).roomLimiters
      = (checkRateLimit h m.chatRoom now).2.roomLimiters := by
  by_cases hb : (checkRateLimit h m.chatRoom now).1 = true <;>
    simp [handleBroadcast, hb, broadcastToRoom_roomLimiters]

theorem aupdate_isSome_mono {α β : Type} [DecidableEq α]
    (l : List (α × β)) (a k : α) (b : β) (hs : (alookup l a).isSome = true) :
    (alookup (aupdate l k b) a).isSome = true := by
  rw [alookup_aupdate]
  by_cases hak : a = k
  · rw [if_pos hak]
    rfl
  · rw [if_neg hak]
    exact hs

theorem applyOp_roomLimiters_mono (h : HubState) (op : HubOp) (r : String)
    (hs : (alookup h.roomLimiters r).isSome = true) :
    (alookup (applyOp h op).roomLimiters r).isSome = true := by
  cases op with
  | register c now =>
    have heq : (applyOp h (HubOp.register c now)).roomLimiters = h.roomLimiters := by
      simp only [applyOp, handleRegister]
      rw [joinRooms_roomLimiters]
    rw [heq]
    exact hs
  | unregister c now =>
    have heq : (applyOp h (HubOp.unregister c now)).roomLimiters = h.roomLimiters := by
      simp only [applyOp]
      unfold handleUnregister
      by_cases hc : c ∈ h.clients
      · rw [if_pos hc, leaveRooms_roomLimiters]
      · rw [if_neg hc]
    rw [heq]
    exact hs
  | broadcastMsg m now =>
    simp only [applyOp]
    rw [handleBroadcast_roomLimiters]
    obtain ⟨v, hv⟩ := checkRateLimit_roomLimiters_eq h m.chatRoom now
    rw [hv]
    exact aupdate_isSome_mono h.roomLimiters r m.chatRoom v hs
  | poll live now => exact hs

theorem runOps_append (h : HubState) :
    ∀ (l1 l2 : List HubOp), runOps h (l1 ++ l2) = runOps (runOps h l1) l2 := by
  intro l1
  induction l1 generalizing h with
  | nil => intro l2; rfl
  | cons op rest ih =>
    intro l2
    simp only [List.cons_append, runOps]
    exact ih (applyOp h op) l2

theorem runOps_roomLimiters_mono :
    ∀ (more : List HubOp) (h : HubState) (r : String),
    (alookup h.roomLimiters r).isSome = true →
    (alookup (runOps h more).roomLimiters r).isSome = true := by
  intro more
  induction more with
  | nil =>
    intro h r hs
    exact hs
  | cons op rest ih =>
    intro h r hs
    exact ih (applyOp h op) r (applyOp_roomLimiters_mono h op r hs)

theorem matchNeedsUpdate_self (m : Match) : matchNeedsUpdate m m = false := by
  simp [matchNeedsUpdate]

theorem eventMsg_inj (a b : Match) (now : Int)
    (h : eventMsg a now = eventMsg b now) : a = b := by
  have := congrArg WSMessage.matchData h
  simpa [eventMsg] using this

theorem needsBroadcast_congr (cache cache' : List (String × Match)) (m : Match)
    (h : alookup cache' m.id = alookup cache m.id) :
    needsBroadcast cache' m = needsBroadcast cache m := by
  simp [needsBroadcast, h]

theorem fetchMatchUpdates_msgs_shape :
    ∀ (live : List Match) (cache : List (String × Match)) (now : Int)
      (w : WSMessage), w ∈ (fetchMatchUpdates cache live now).2 →
    ∃ mm, mm ∈ live ∧ w = eventMsg mm now := by
  intro live
  induction live with
  | nil =>
    intro cache now w hw
    simp [fetchMatchUpdates] at hw
  | cons m rest ih =>
    intro cache now w hw
    by_cases hn : needsBroadcast cache m = true
    · rw [show fetchMatchUpdates cache (m :: rest) now
          = ((fetchMatchUpdates (aupdate cache m.id m) rest now).1,
             eventMsg m now :: (fetchMatchUpdates (aupdate cache m.id m) rest now).2) by
        simp [fetchMatchUpdates, hn]] at hw
      rcases List.mem_cons.mp hw with rfl | hw2
      · exact ⟨m, List.mem_cons_self m rest, rfl⟩
      · obtain ⟨mm, hmm, hweq⟩ := ih (aupdate cache m.id m) now w hw2
        exact ⟨mm, List.mem_cons_of_mem m hmm, hweq⟩
    · rw [show fetchMatchUpdates cache (m :: rest) now
          = fetchMatchUpdates cache rest now by
        simp [fetchMatchUpdates, hn]] at hw
      obtain ⟨mm, hmm, hweq⟩ := ih cache now w hw
      exact ⟨mm, List.mem_cons_of_mem m hmm, hweq⟩

theorem fetchMatchUpdates_cache_other :
    ∀ (live : List Match) (cache : List (String × Match)) (now : Int) (k : String),
    (∀ mm ∈ live, mm.id ≠ k) →
    alookup (fetchMatchUpdates cache live now).1 k = alookup cache k := by
  intro live
  induction live with
  | nil =>
    intro cache now k _
    rfl
  | cons m rest ih =>
    intro cache now k hne
    have hm : m.id ≠ k := hne m (List.mem_cons_self m rest)
    have hrest : ∀ mm ∈ rest, mm.id ≠ k := fun mm hmm => hne mm (List.mem_cons_of_mem m hmm)
    by_cases hn : needsBroadcast cache m = true
    · rw [show (fetchMatchUpdates cache (m :: rest) now).1
          = (fetchMatchUpdates (aupdate cache m.id m) rest now).1 by
        simp [fetchMatchUpdates, hn]]
      rw [ih (aupdate cache m.id m) now k hrest, alookup_aupdate,
        if_neg (fun hcontra => hm hcontra.symm)]
    · rw [show (fetchMatchUpdates cache (m :: rest) now).1
          = (fetchMatchUpdates cache rest now).1 by
        simp [fetchMatchUpdates, hn]]
      exact ih cache now k hrest

theorem fetchMatchUpdates_settled :
    ∀ (live : List Match) (cache : List (String × Match)) (now : Int),
    (live.map Match.id).Nodup → ∀ m ∈ live,
    needsBroadcast (fetchMatchUpdates cache live now).1 m = false := by
  intro live
  induction live with
  | nil =>
    intro cache now _ m hm
    exact absurd hm (List.not_mem_nil m)
  | cons m0 rest ih =>
    intro cache now hnodup m hm
    have hnodup2 : (m0.id ∉ rest.map Match.id) ∧ (rest.map Match.id).Nodup := by
      rw [List.map_cons, List.nodup_cons] at hnodup
      exact hnodup
    have hrestne : ∀ mm ∈ rest, mm.id ≠ m0.id := by
      intro mm hmm heq
      exact hnodup2.1 (heq ▸ List.mem_map_of_mem Match.id hmm)
    rcases List.mem_cons.mp hm with rfl | hmr
    · by_cases hn : needsBroadcast cache m = true
      · rw [show (fetchMatchUpdates cache (m :: rest) now).1
            = (fetchMatchUpdates (aupdate cache m.id m) rest now).1 by
          simp [fetchMatchUpdates, hn]]
        have hlook : alookup (fetchMatchUpdates (aupdate cache m.id m) rest now).1 m.id
            = some m := by
          rw [fetchMatchUpdates_cache_other rest _ now m.id hrestne, alookup_aupdate,
            if_pos rfl]
        simp [needsBroadcast, hlook, matchNeedsUpdate_self]
      · rw [show (fetchMatchUpdates cache (m :: rest) now).1
            = (fetchMatchUpdates cache rest now).1 by
          simp [fetchMatchUpdates, hn]]
        cases hlook : alookup cache m.id with
        | none =>
          rw [show needsBroadcast cache m = true by simp [needsBroadcast, hlook]] at hn
          exact absurd rfl hn
        | some old =>
          have hold : matchNeedsUpdate old m = false := by
            have heq : needsBroadcast cache m = matchNeedsUpdate old m := by
              simp [needsBroadcast, hlook]
            rw [heq] at hn
            cases hval : matchNeedsUpdate old m
            · rfl
            · exact absurd hval hn
          have hlook2 : alookup (fetchMatchUpdates cache rest now).1 m.id = some old := by
            rw [fetchMatchUpdates_cache_other rest cache now m.id hrestne]
            exact hlook
          simp [needsBroadcast, hlook2, hold]
    · have hm0ne : m.id ≠ m0.id := by
        intro heq
        exact hnodup2.1 (heq ▸ List.mem_map_of_mem Match.id hmr)
      by_cases hn : needsBroadcast cache m0 = true
      · rw [show (fetchMatchUpdates cache (m0 :: rest) now).1
            = (fetchMatchUpdates (aupdate cache m0.id m0) rest now).1 by
          simp [fetchMatchUpdates, hn]]
        exact ih (aupdate cache m0.id m0) now hnodup2.2 m hmr
      · rw [show (fetchMatchUpdates cache (m0 :: rest) now).1
            = (fetchMatchUpdates cache rest now).1 by
          simp [fetchMatchUpdates, hn]]
        exact ih cache now hnodup2.2 m hmr

theorem fetchMatchUpdates_cache_mem :
    ∀ (live : List Match) (cache : List (String × Match)) (now : Int),
    (live.map Match.id).Nodup → ∀ m ∈ live, needsBroadcast cache m = true →
    alookup (fetchMatchUpdates cache live now).1 m.id = some m := by
  intro live
  induction live with
  | nil =>
    intro cache now _ m hm
    exact absurd hm (List.not_mem_nil m)
  | cons m0 rest ih =>
    intro cache now hnodup m hm hn
    have hnodup2 : (m0.id ∉ rest.map Match.id) ∧ (rest.map Match.id).Nodup := by
      rw [List.map_cons, List.nodup_cons] at hnodup
      exact hnodup
    have hrestne : ∀ mm ∈ rest, mm.id ≠ m0.id := by
      intro mm hmm heq
      exact hnodup2.1 (heq ▸ List.mem_map_of_mem Match.id hmm)
    rcases List.mem_cons.mp hm with rfl | hmr
    · rw [show (fetchMatchUpdates cache (m :: rest) now).1
          = (fetchMatchUpdates (aupdate cache m.id m) rest now).1 by
        simp [fetchMatchUpdates, hn]]
      rw [fetchMatchUpdates_cache_other rest _ now m.id hrestne, alookup_aupdate,
        if_pos rfl]
    · have hm0ne : m.id ≠ m0.id := by
        intro heq
        exact hnodup2.1 (heq ▸ List.mem_map_of_mem Match.id hmr)
      by_cases hn0 : needsBroadcast cache m0 = true
      · rw [show (fetchMatchUpdates cache (m0 :: rest) now).1
            = (fetchMatchUpdates (aupdate cache m0.id m0) rest now).1 by
          simp [fetchMatchUpdates, hn0]]
        have hcongr : needsBroadcast (aupdate cache m0.id m0) m = needsBroadcast cache m := by
          apply needsBroadcast_congr
          rw [alookup_aupdate, if_neg hm0ne]
        exact ih (aupdate cache m0.id m0) now hnodup2.2 m hmr (hcongr ▸ hn)
      · rw [show (fetchMatchUpdates cache (m0 :: rest) now).1
            = (fetchMatchUpdates cache rest now).1 by
          simp [fetchMatchUpdates, hn0]]
        exact ih cache now hnodup2.2 m hmr hn

theorem fetchMatchUpdates_mem_iff :
    ∀ (live : List Match) (cache : List (String × Match)) (now : Int),
    (live.map Match.id).Nodup → ∀ m ∈ live,
    (eventMsg m now ∈ (fetchMatchUpdates cache live now).2
      ↔ needsBroadcast cache m = true) := by
  intro live
  induction live with
  | nil =>
    intro cache now _ m hm
    exact absurd hm (List.not_mem_nil m)
  | cons m0 rest ih =>
    intro cache now hnodup m hm
    have hnodup2 : (m0.id ∉ rest.map Match.id) ∧ (rest.map Match.id).Nodup := by
      rw [List.map_cons, List.nodup_cons] at hnodup
      exact hnodup
    rcases List.mem_cons.mp hm with rfl | hmr
    · by_cases hn : needsBroadcast cache m = true
      · rw [show (fetchMatchUpdates cache (m :: rest) now).2
            = eventMsg m now :: (fetchMatchUpdates (aupdate cache m.id m) rest now).2 by
          simp [fetchMatchUpdates, hn]]
        simp [hn]
      · rw [show (fetchMatchUpdates cache (m :: rest) now).2
            = (fetchMatchUpdates cache rest now).2 by
          simp [fetchMatchUpdates, hn]]
        constructor
        · intro hw
          obtain ⟨mm, hmm, hweq⟩ := fetchMatchUpdates_msgs_shape rest cache now _ hw
          have hmmeq : m = mm := eventMsg_inj m mm now hweq
          exact absurd (hmmeq ▸ List.mem_map_of_mem Match.id hmm) hnodup2.1
        · intro ht
          exact absurd ht hn
    · have hm0ne : m.id ≠ m0.id := by
        intro heq
        exact hnodup2.1 (heq ▸ List.mem_map_of_mem Match.id hmr)
      by_cases hn0 : needsBroadcast cache m0 = true
      · rw [show (fetchMatchUpdates cache (m0 :: rest) now).2
            = eventMsg m0 now :: (fetchMatchUpdates (aupdate cache m0.id m0) rest now).2 by
          simp [fetchMatchUpdates, hn0]]
        have hcongr : needsBroadcast (aupdate cache m0.id m0) m = needsBroadcast cache m := by
          apply needsBroadcast_congr
          rw [alookup_aupdate, if_neg hm0ne]
        have hne0 : eventMsg m now ≠ eventMsg m0 now := by
          intro heq
          exact hm0ne (congrArg Match.id (eventMsg_inj m m0 now heq))
        rw [List.mem_cons]
        constructor
        · rintro (hcontra | hw)
          · exact absurd hcontra hne0
          · exact hcongr ▸ (ih (aupdate cache m0.id m0) now hnodup2.2 m hmr).mp hw
        · intro ht
          exact Or.inr ((ih (aupdate cache m0.id m0) now hnodup2.2 m hmr).mpr
            (hcongr ▸ ht))
      · rw [show (fetchMatchUpdates cache (m0 :: rest) now).2
            = (fetchMatchUpdates cache rest now).2 by
          simp [fetchMatchUpdates, hn0]]
        exact ih cache now hnodup2.2 m hmr

theorem fetchMatchUpdates_noChange :
    ∀ (live : List Match) (cache : List (String × Match)) (now : Int),
    (∀ m ∈ live, needsBroadcast cache m = false) →
    fetchMatchUpdates cache live now = (cache, []) := by
  intro live
  induction live with
  | nil =>
    intro cache now _
    rfl
  | cons m rest ih =>
    intro cache now hall
    have hm : needsBroadcast cache m = false := hall m (List.mem_cons_self m rest)
    have hrest : ∀ mm ∈ rest, needsBroadcast cache mm = false :=
      fun mm hmm => hall mm (List.mem_cons_of_mem m hmm)
    rw [show fetchMatchUpdates cache (m :: rest) now = fetchMatchUpdates cache rest now by
      simp [fetchMatchUpdates, hm]]
    exact ih cache now hrest

theorem handleBroadcast_delivers (h : HubState) (m : WSMessage) (now : Int)
    (hok : (checkRateLimit h m.chatRoom now).1 = true)
    (c : Client) (q : SendQueue)
    (hnodup : ((roomMembers h m.chatRoom).map Client.id).Nodup)
    (hc : c ∈ roomMembers h m.chatRoom)
    (hq : alookup h.queues c.id = some q)
    (hfree : q.buf.length < q.cap) :
    alookup (handleBroadcast h m now).queues c.id = some ⟨q.buf ++ [m], q.cap⟩ := by
  rw [show handleBroadcast h m now
      = broadcastToRoom (checkRateLimit h m.chatRoom now).2 m.chatRoom m by
    simp [handleBroadcast, hok]]
  have hspec := (fanout_member_spec m (roomMembers h m.chatRoom) h.queues
    (checkRateLimit h m.chatRoom now).2.pendingUnregister c q hnodup hc hq).1
  rw [if_pos hfree] at hspec
  exact hspec

theorem broadcastToRoom_self_delivery (h : HubState) (room : String) (m : WSMessage)
    (c : Client) (others : List Client) (buf : List WSMessage) (cap : Nat)
    (hmem : roomMembers h room = c :: others)
    (hothers : ∀ e ∈ others, e.id ≠ c.id)
    (hq : alookup h.queues c.id = some ⟨buf, cap⟩)
    (hfree : buf.length < cap) :
    alookup (broadcastToRoom h room m).queues c.id = some ⟨buf ++ [m], cap⟩ := by
  show alookup (fanout (roomMembers h room) m h.queues h.pendingUnregister).1 c.id = _
  rw [hmem]
  rw [show fanout (c :: others) m h.queues h.pendingUnregister
      = fanout others m (aupdate h.queues c.id ⟨buf ++ [m], cap⟩) h.pendingUnregister by
    simp [fanout, hq, enqueue?_pos ⟨buf, cap⟩ m hfree]]
  rw [fanout_lookup_other m others _ _ c.id hothers, alookup_aupdate, if_pos rfl]

theorem joinRooms_self_delivery (c : Client) (now : Int) :
    ∀ (rs : List String) (h : HubState) (buf : List WSMessage),
    rs.Nodup →
    alookup h.queues c.id = some ⟨buf, c.sendCap⟩ →
    buf.length + rs.length ≤ c.sendCap →
    (∀ r ∈ rs, ∀ e ∈ roomMembers h r, e.id ≠ c.id) →
    alookup (joinRooms c now h rs).queues c.id
      = some ⟨buf ++ rs.map (fun r => joinMsg c r now), c.sendCap⟩ := by
  intro rs
  induction rs with
  | nil =>
    intro h buf _ hq _ _
    simpa [joinRooms] using hq
  | cons r0 rest ih =>
    intro h buf hnodup hq hcap hfresh
    have hnodup2 : r0 ∉ rest ∧ rest.Nodup := List.nodup_cons.mp hnodup
    have hfresh0 : ∀ e ∈ roomMembers h r0, e.id ≠ c.id :=
      hfresh r0 (List.mem_cons_self r0 rest)
    have hnotin : c ∉ roomMembers h r0 := fun hcmem => hfresh0 c hcmem rfl
    have hfree : buf.length < c.sendCap := by
      have : buf.length + (rest.length + 1) ≤ c.sendCap := by
        simpa [List.length_cons] using hcap
      omega
    simp only [joinRooms]
    have hmem : roomMembers
        { h with rooms := aupdate h.rooms r0 (insertClient c (roomMembers h r0)) } r0
        = c :: roomMembers h r0 := by
      rw [roomMembers_update, if_pos rfl]
      unfold insertClient
      rw [if_neg hnotin]
    have hq2 : alookup (broadcastToRoom
        { h with rooms := aupdate h.rooms r0 (insertClient c (roomMembers h r0)) }
        r0 (joinMsg c r0 now)).queues c.id
        = some ⟨buf ++ [joinMsg c r0 now], c.sendCap⟩ :=
      broadcastToRoom_self_delivery _ r0 (joinMsg c r0 now) c (roomMembers h r0)
        buf c.sendCap hmem hfresh0 hq hfree
    have hfresh2 : ∀ r ∈ rest, ∀ e ∈ roomMembers (broadcastToRoom
        { h with rooms := aupdate h.rooms r0 (insertClient c (roomMembers h r0)) }
        r0 (joinMsg c r0 now)) r, e.id ≠ c.id := by
      intro r hr
      have hrne : r ≠ r0 := fun hcontra => hnodup2.1 (hcontra ▸ hr)
      rw [broadcastToRoom_roomMembers, roomMembers_update, if_neg hrne]
      exact hfresh r (List.mem_cons_of_mem r0 hr)
    have hcap2 : (buf ++ [joinMsg c r0 now]).length + rest.length ≤ c.sendCap := by
      rw [List.length_append]
      simp only [List.length_cons, List.length_nil]
      have : buf.length + (rest.length + 1) ≤ c.sendCap := by
        simpa [List.length_cons] using hcap
      omega
    rw [List.map_cons]
    rw [show buf ++ (joinMsg c r0 now :: rest.map (fun r => joinMsg c r now))
        = (buf ++ [joinMsg c r0 now]) ++ rest.map (fun r => joinMsg c r now) by simp]
    exact ih _ (buf ++ [joinMsg c r0 now]) hnodup2.2 hq2 hcap2 hfresh2

/-! Concrete inputs used by the counterexamples and witnesses. -/

def c1Client : Client := ⟨1, "alice", ["m1"], 4⟩

def c1Match : Match := ⟨"m1", 1, 0, "LIVE"⟩

def c1Trace : List HubOp :=
  [HubOp.register c1Client 0, HubOp.poll [c1Match] 1, HubOp.unregister c1Client 2]

/-- Claim C1 counterexample: after a client joins room `m1`, the poller
caches a match snapshot for `m1`, and the client leaves, `handleUnregister`
removes the `m1` entry from the rooms index even though the hub still holds
cached match state for `m1` — so a room with cached match state but no
members has no index entry, contradicting the claimed if-and-only-if. -/
theorem room_entry_removed_despite_cached_match :
    alookup (runOps HubState.init c1Trace).rooms "m1" = none ∧
    alookup (runOps HubState.init c1Trace).matchCache "m1" = some c1Match := by
  exact ⟨by decide, by decide⟩

/-- Claim C1 (amended): in every reachable hub state a room entry is
present in the rooms index if and only if its member set is non-empty.
Cached match snapshots live in the separate `matches` map and do not keep
a room entry alive: when `handleUnregister` empties a room's member set the
entry is removed unconditionally, cached match state or not. -/
theorem room_entry_iff_members_nonempty (ops : List HubOp) (r : String) :
    (alookup (runOps HubState.init ops).rooms r).isSome = true
      ↔ roomMembers (runOps HubState.init ops) r ≠ [] := by
  obtain ⟨_, hne⟩ :=
    MembershipInv_runOps ops HubState.init MembershipInv_init RoomsNonempty_init
  constructor
  · intro hs
    cases hlook : alookup (runOps HubState.init ops).rooms r with
    | none =>
      rw [hlook] at hs
      cases hs
    | some l =>
      rw [show roomMembers (runOps HubState.init ops) r = l by simp [roomMembers, hlook]]
      exact hne r l hlook
  · intro hmem
    cases hlook : alookup (runOps HubState.init ops).rooms r with
    | none =>
      exact absurd (by simp [roomMembers, hlook]) hmem
    | some l =>
      rfl

/-- Claim C2: the limiter `checkRateLimit` installs for a room is
`rate.NewLimiter(rate.Every(time.Second), 10)`, which refills one token
per second with burst 10 — not the claimed (and code-commented) 10
messages per second.  A room sending its 10-message burst at t = 0 and
two more messages at t = 1 has the 12th message dropped, while a limiter
with the claimed sustained rate of 10 per second admits all 12. -/
theorem room_limiter_refills_one_per_second_not_ten :
    runAllows newRoomLimiter [0, 0, 0, 0, 0, 0, 0, 0, 0, 0, 1, 1]
      = [true, true, true, true, true, true, true, true, true, true, true, false] ∧
    runAllows (Limiter.new 10 10) [0, 0, 0, 0, 0, 0, 0, 0, 0, 0, 1, 1]
      = [true, true, true, true, true, true, true, true, true, true, true, true] ∧
    alookup (checkRateLimit HubState.init "m1" 0).2.roomLimiters "m1"
      = some ((newRoomLimiter.allowAt 0).2) := by
  exact ⟨by decide, by decide, by decide⟩

/-- Claim C3: in a fan-out of one message to a room whose members carry
distinct connection identities, a member whose outbound queue has free
capacity receives the message at the tail of its queue; a member whose
queue is full keeps its queue unchanged and is recorded for asynchronous
eviction (`go h.unregister <- client` becomes the pending-eviction list,
consumed only by a later hub-loop iteration — the fan-out itself leaves
the client and room index untouched); each member's outcome is
independent of the other members, so delivery to the others succeeds. -/
theorem fanout_delivers_or_evicts (h : HubState) (r : String) (m : WSMessage)
    (c : Client) (q : SendQueue)
    (hnodup : ((roomMembers h r).map Client.id).Nodup)
    (hc : c ∈ roomMembers h r)
    (hq : alookup h.queues c.id = some q) :
    ((broadcastToRoom h r m).clients = h.clients
      ∧ (broadcastToRoom h r m).rooms = h.rooms) ∧
    (q.buf.length < q.cap →
      alookup (broadcastToRoom h r m).queues c.id = some ⟨q.buf ++ [m], q.cap⟩) ∧
    (¬ q.buf.length < q.cap →
      alookup (broadcastToRoom h r m).queues c.id = some q ∧
      c ∈ (broadcastToRoom h r m).pendingUnregister) := by
  have hspec := fanout_member_spec m (roomMembers h r) h.queues h.pendingUnregister
    c q hnodup hc hq
  refine ⟨⟨rfl, rfl⟩, ?_, ?_⟩
  · intro hfree
    have h1 := hspec.1
    rw [if_pos hfree] at h1
    exact h1
  · intro hfull
    have h1 := hspec.1
    rw [if_neg hfull] at h1
    exact ⟨h1, hspec.2 hfull⟩

def c3Slow : Client := ⟨10, "ann", ["m1"], 1⟩

def c3Fast : Client := ⟨11, "ben", ["m1"], 4⟩

def c3Hub : HubState :=
  { clients := [c3Slow, c3Fast],
    rooms := [("m1", [c3Slow, c3Fast])],
    queues := [(10, ⟨[rateLimitErrorMsg], 1⟩), (11, ⟨[], 4⟩)],
    roomLimiters := [], matchCache := [], pendingUnregister := [] }

def c3Msg : WSMessage :=
  { type := .chat, chatRoom := "m1", content := "x", user := some "ann", timestamp := 0 }

/-- Witness for C3: in a room with a full-queued slow member and a free
member, the fan-out delivers to the free member, leaves the slow member's
queue unchanged, and marks the slow member for asynchronous eviction. -/
theorem fanout_delivers_or_evicts_witness :
    ((roomMembers c3Hub "m1").map Client.id).Nodup ∧
    alookup (broadcastToRoom c3Hub "m1" c3Msg).queues 11 = some ⟨[c3Msg], 4⟩ ∧
    alookup (broadcastToRoom c3Hub "m1" c3Msg).queues 10
      = some ⟨[rateLimitErrorMsg], 1⟩ ∧
    c3Slow ∈ (broadcastToRoom c3Hub "m1" c3Msg).pendingUnregister := by
  have hB := fanout_delivers_or_evicts c3Hub "m1" c3Msg c3Fast ⟨[], 4⟩
    (by decide) (by decide) (by decide)
  have hA := fanout_delivers_or_evicts c3Hub "m1" c3Msg c3Slow ⟨[rateLimitErrorMsg], 1⟩
    (by decide) (by decide) (by decide)
  refine ⟨by decide, ?_, ?_, ?_⟩
  · exact hB.2.1 (by decide)
  · exact (hA.2.2 (by decide)).1
  · exact (hA.2.2 (by decide)).2

/-- Claim C4: after any sequence of hub operations from the initial
state, a registered connection is in a room's member set exactly when
that room is in the connection's own room set. -/
theorem membership_bidirectional_consistency (ops : List HubOp) (c : Client)
    (r : String) (hc : c ∈ (runOps HubState.init ops).clients) :
    c ∈ roomMembers (runOps HubState.init ops) r ↔ r ∈ c.rooms := by
  obtain ⟨hinv, _⟩ :=
    MembershipInv_runOps ops HubState.init MembershipInv_init RoomsNonempty_init
  rw [hinv c r]
  simp [hc]

def c4Client : Client := ⟨4, "dana", ["m7"], 3⟩

/-- Witness for C4 at a concrete registration. -/
theorem membership_bidirectional_consistency_witness :
    c4Client ∈ (runOps HubState.init [HubOp.register c4Client 0]).clients ∧
    (c4Client ∈ roomMembers (runOps HubState.init [HubOp.register c4Client 0]) "m7"
      ↔ "m7" ∈ c4Client.rooms) :=
  ⟨by decide,
    membership_bidirectional_consistency [HubOp.register c4Client 0] c4Client "m7"
      (by decide)⟩

/-- Claim C5: on one poll tick over live matches with distinct
identifiers, a match-event broadcast is submitted for a match exactly
when it is new to the cache or differs from the cached snapshot in home
score, away score or status; in that case the cache is updated to the new
snapshot, and a second tick over an identical live list submits no
broadcasts at all. -/
theorem poll_broadcasts_iff_changed (cache : List (String × Match))
    (live : List Match) (now now2 : Int)
    (hnodup : (live.map Match.id).Nodup) :
    (∀ m ∈ live,
      (eventMsg m now ∈ (fetchMatchUpdates cache live now).2
        ↔ needsBroadcast cache m = true) ∧
      (needsBroadcast cache m = true →
        alookup (fetchMatchUpdates cache live now).1 m.id = some m)) ∧
    (fetchMatchUpdates (fetchMatchUpdates cache live now).1 live now2).2 = [] := by
  refine ⟨fun m hm => ⟨fetchMatchUpdates_mem_iff live cache now hnodup m hm,
    fun hn => fetchMatchUpdates_cache_mem live cache now hnodup m hm hn⟩, ?_⟩
  rw [fetchMatchUpdates_noChange live _ now2
    (fetchMatchUpdates_settled live cache now hnodup)]

def c5Match : Match := ⟨"m1", 0, 0, "LIVE"⟩

/-- Witness for C5: a match new to an empty cache is broadcast once and a
repeat poll with the same snapshot broadcasts nothing. -/
theorem poll_broadcasts_iff_changed_witness :
    ([c5Match].map Match.id).Nodup ∧
    (eventMsg c5Match 5 ∈ (fetchMatchUpdates [] [c5Match] 5).2
      ↔ needsBroadcast [] c5Match = true) ∧
    (fetchMatchUpdates (fetchMatchUpdates [] [c5Match] 5).1 [c5Match] 6).2 = [] := by
  have h := poll_broadcasts_iff_changed [] [c5Match] 5 6 (by decide)
  exact ⟨by decide, (h.1 c5Match (by decide)).1, h.2⟩

/-- Claim C6: a decoded frame that passes the per-connection limiter is
stamped with the authenticated user and the server time, overwriting the
client-supplied fields; when the sender is a member of the target room
the stamped message (original content intact) is submitted to the
broadcast channel, and the subsequent `handleBroadcast` (when the room
limiter admits) appends it to the queue of every room member with free
queue capacity — the sender, being a member, included; when the sender is
not a member, the sender alone gets the access-denied error reply and
nothing is submitted. -/
theorem chat_frame_stamped_broadcast_or_access_denied
    (c : Client) (m : WSMessage) (now now2 : Int) (h : HubState) :
    (canAccessRoom c m.chatRoom = false →
      processFrame c (some m) true now = ([accessDeniedMsg], [], true)) ∧
    (canAccessRoom c m.chatRoom = true →
      processFrame c (some m) true now
          = ([], [{ m with user := some c.user, timestamp := now }], true) ∧
      ({ m with user := some c.user, timestamp := now } : WSMessage).content = m.content ∧
      ((checkRateLimit h m.chatRoom now2).1 = true →
        ∀ c2 q, ((roomMembers h m.chatRoom).map Client.id).Nodup →
          c2 ∈ roomMembers h m.chatRoom →
          alookup h.queues c2.id = some q → q.buf.length < q.cap →
          alookup (handleBroadcast h
              { m with user := some c.user, timestamp := now } now2).queues c2.id
            = some ⟨q.buf ++ [{ m with user := some c.user, timestamp := now }], q.cap⟩)) := by
  constructor
  · intro hcan
    simp [processFrame, hcan]
  · intro hcan
    refine ⟨by simp [processFrame, hcan], rfl, ?_⟩
    intro hok c2 q hnodup hc2 hq hfree
    exact handleBroadcast_delivers h { m with user := some c.user, timestamp := now }
      now2 hok c2 q hnodup hc2 hq hfree

def c6Client : Client := ⟨6, "abby", ["m1"], 4⟩

def c6In : WSMessage :=
  { type := .chat, chatRoom := "m1", content := "hello",
    user := some "mallory", timestamp := 99 }

def c6Out : WSMessage :=
  { type := .chat, chatRoom := "m1", content := "hello",
    user := some "abby", timestamp := 5 }

def c6Hub : HubState :=
  { clients := [c6Client],
    rooms := [("m1", [c6Client])],
    queues := [(6, ⟨[], 4⟩)],
    roomLimiters := [], matchCache := [], pendingUnregister := [] }

/-- Witness for C6: a member's chat frame is stamped (sender and
timestamp overwritten, content kept) and delivered back to the member's
own queue through the broadcast path; the same frame aimed at an
un-joined room yields only the access-denied reply. -/
theorem chat_frame_stamped_broadcast_or_access_denied_witness :
    canAccessRoom c6Client "m1" = true ∧
    processFrame c6Client (some c6In) true 5 = ([], [c6Out], true) ∧
    (checkRateLimit c6Hub "m1" 7).1 = true ∧
    alookup (handleBroadcast c6Hub c6Out 7).queues 6 = some ⟨[c6Out], 4⟩ ∧
    canAccessRoom c6Client "m2" = false ∧
    processFrame c6Client (some { c6In with chatRoom := "m2" }) true 5
      = ([accessDeniedMsg], [], true) := by
  have h1 := chat_frame_stamped_broadcast_or_access_denied c6Client c6In 5 7 c6Hub
  have h2 := chat_frame_stamped_broadcast_or_access_denied c6Client
    { c6In with chatRoom := "m2" } 5 7 c6Hub
  refine ⟨by decide, (h1.2 (by decide)).1, by decide, ?_, by decide, h2.1 (by decide)⟩
  exact (h1.2 (by decide)).2.2 (by decide) c6Client ⟨[], 4⟩
    (by decide) (by decide) (by decide) (by decide)

/-- Claim C7: a decoded frame rejected by the per-connection limiter
produces exactly one rate-limit error reply on the sender's own queue,
submits nothing to the broadcast channel (so no hub state changes and no
other member receives anything), and the read pump keeps reading. -/
theorem rate_limited_frame_single_error_reply (c : Client) (m : WSMessage) (now : Int) :
    processFrame c (some m) false now = ([rateLimitErrorMsg], [], true) := by
  simp [processFrame]

/-- Claim C8 refutation: the interleaving in which the hub loop registers
a connection (spawning `sendInitialData`), then processes its unregister
(closing the `send` channel), and only then the `sendInitialData`
goroutine executes its unguarded `client.send <- payload`, is reachable
and performs a write on the already-closed outbound queue (a send on a
closed channel — in Go a runtime panic). -/
theorem initial_data_write_after_close_reachable :
    (sessionRun sessionInit
      [SessionStep.hubRegister, SessionStep.hubUnregister,
        SessionStep.initialSend]).writeAfterClose = true := by
  decide

def c9Client : Client := ⟨2, "bob", ["m2"], 4⟩

def c9Chat : WSMessage :=
  { type := .chat, chatRoom := "m2", content := "hi", user := some "bob", timestamp := 0 }

def c9Trace : List HubOp :=
  [HubOp.register c9Client 0, HubOp.broadcastMsg c9Chat 0, HubOp.unregister c9Client 0]

/-- Claim C9 counterexample: after one message to room `m2` (limiter
created, one token consumed) and the departure of its last member (room
entry removed), the limiter entry is still present — not discarded — and
does not hold the full burst; after a rejoin and one further message the
token count is 8, i.e. the old limiter's state was reused, where a fresh
limiter would stand at 9 after its first message. -/
theorem room_limiter_survives_room_removal :
    alookup (runOps HubState.init c9Trace).rooms "m2" = none ∧
    (alookup (runOps HubState.init c9Trace).roomLimiters "m2").isSome = true ∧
    (alookup (runOps HubState.init c9Trace).roomLimiters "m2").map Limiter.tokens
      ≠ some 10 ∧
    (alookup
        (runOps HubState.init
          (c9Trace ++ [HubOp.register c9Client 0, HubOp.broadcastMsg c9Chat 0])).roomLimiters
        "m2").map Limiter.tokens = some 8 := by
  exact ⟨by decide, by decide, by decide, by decide⟩

/-- Claim C9 (amended): a room's rate limiter is created lazily on the
first broadcast to the room and then persists for the lifetime of the
hub: no operation ever discards it, even removal of the room's index
entry, and a rejoin followed by a first message reuses the old limiter's
token state. -/
theorem room_limiter_persists_forever (ops more : List HubOp) (r : String)
    (hs : (alookup (runOps HubState.init ops).roomLimiters r).isSome = true) :
    (alookup (runOps HubState.init (ops ++ more)).roomLimiters r).isSome = true := by
  rw [runOps_append]
  exact runOps_roomLimiters_mono more (runOps HubState.init ops) r hs

/-- Witness for the amended C9: the limiter created by a broadcast to
`m2` is still present after the room's only member unregisters. -/
theorem room_limiter_persists_forever_witness :
    (alookup (runOps HubState.init
      [HubOp.register c9Client 0, HubOp.broadcastMsg c9Chat 0]).roomLimiters "m2").isSome
        = true ∧
    (alookup (runOps HubState.init
      ([HubOp.register c9Client 0, HubOp.broadcastMsg c9Chat 0]
        ++ [HubOp.unregister c9Client 1])).roomLimiters "m2").isSome = true :=
  ⟨by decide,
    room_limiter_persists_forever [HubOp.register c9Client 0, HubOp.broadcastMsg c9Chat 0]
      [HubOp.unregister c9Client 1] "m2" (by decide)⟩

/-- Claim C10: registering a fresh connection (new identity, no queue
yet, enough queue capacity, distinct initial rooms) inserts it into each
of its rooms' member sets before fanning out the synthesized join event,
so the connection's own queue ends up holding exactly the join events of
its rooms, its own join event for each joined room included. -/
theorem register_delivers_own_join (h : HubState) (c : Client) (now : Int) (r : String)
    (hqnone : alookup h.queues c.id = none)
    (hfresh : ∀ rm lm, alookup h.rooms rm = some lm → ∀ e ∈ lm, e.id ≠ c.id)
    (hcap : c.rooms.length ≤ c.sendCap)
    (hnodup : c.rooms.Nodup)
    (hr : r ∈ c.rooms) :
    c ∈ roomMembers (handleRegister h c now) r ∧
    alookup (handleRegister h c now).queues c.id
      = some ⟨c.rooms.map (fun r2 => joinMsg c r2 now), c.sendCap⟩ ∧
    joinMsg c r now ∈ c.rooms.map (fun r2 => joinMsg c r2 now) := by
  refine ⟨?_, ?_, List.mem_map_of_mem _ hr⟩
  · simp only [handleRegister]
    rw [joinRooms_mem]
    exact Or.inr ⟨rfl, hr⟩
  · rw [show handleRegister h c now = joinRooms c now { h with clients := insertClient c h.clients, queues := aupdate h.queues c.id ⟨[], c.sendCap⟩ } c.rooms by simp [handleRegister, hqnone]]
    have hq0 : alookup (aupdate h.queues c.id (⟨[], c.sendCap⟩ : SendQueue)) c.id
        = some ⟨[], c.sendCap⟩ := by
      rw [alookup_aupdate, if_pos rfl]
    have hfresh2 : ∀ r2 ∈ c.rooms, ∀ e ∈ roomMembers { h with clients := insertClient c h.clients, queues := aupdate h.queues c.id ⟨[], c.sendCap⟩ } r2, e.id ≠ c.id := by
      intro r2 _ e he
      have he2 : e ∈ roomMembers h r2 := he
      cases hlook : alookup h.rooms r2 with
      | none =>
        rw [show roomMembers h r2 = [] by simp [roomMembers, hlook]] at he2
        cases he2
      | some lm =>
        rw [show roomMembers h r2 = lm by simp [roomMembers, hlook]] at he2
        exact hfresh r2 lm hlook e he2
    have hres := joinRooms_self_delivery c now c.rooms { h with clients := insertClient c h.clients, queues := aupdate h.queues c.id ⟨[], c.sendCap⟩ } [] hnodup hq0 (by simpa using hcap) hfresh2
    rw [hres]
    simp

def c10Client : Client := ⟨3, "carol", ["m1", "m2"], 4⟩

/-- Witness for C10: registering a two-room connection on a fresh hub
puts both of its own join events on its own queue, in room order. -/
theorem register_delivers_own_join_witness :
    c10Client ∈ roomMembers (handleRegister HubState.init c10Client 0) "m2" ∧
    alookup (handleRegister HubState.init c10Client 0).queues 3
      = some ⟨[joinMsg c10Client "m1" 0, joinMsg c10Client "m2" 0], 4⟩ := by
  have hfresh0 : ∀ rm lm, alookup (HubState.init).rooms rm = some lm →
      ∀ e ∈ lm, e.id ≠ c10Client.id := by
    intro rm lm hl
    simp [HubState.init, alookup] at hl
  have h := register_delivers_own_join HubState.init c10Client 0 "m2"
    (by decide) hfresh0 (by decide) (by decide) (by decide)
  exact ⟨h.1, h.2.1⟩

end SportsChat
